import Mathlib

/-!
Verification of sistema_lista_brasoft.py (Sistema Lista BraSoft).

The Python pipeline is shallowly embedded below: strings are Lean
strings, Python dicts with insertion order are association lists, the
re-module patterns used by the program are embedded as explicit scanning
functions on character lists, and pandas aggregation is embedded as
column-wise folds over rows.  Python library primitives (unicodedata
NFKD stripping, str.lower, the whitespace class of re) are modelled for
the ASCII/Latin range the program's data lives in; everything written in
the repository itself is translated statement by statement.
-/

namespace Brasoft

/-- Models the character class a-z0-9 used by normalize_token's final
re.sub filter in the source. -/
def isLowerAlnum (c : Char) : Bool :=
  (97 ≤ c.toNat && c.toNat ≤ 122) || (48 ≤ c.toNat && c.toNat ≤ 57)

/-- Models the ASCII part of the whitespace class matched by the
re-module escape for whitespace (space, tab, newline, carriage return,
form feed, vertical tab) used in the source's regexes and by str.strip. -/
def isPySpace (c : Char) : Bool :=
  c.toNat = 32 || c.toNat = 9 || c.toNat = 10 || c.toNat = 13 ||
  c.toNat = 12 || c.toNat = 11

/-- Models an ASCII decimal digit, the class matched by the re-module
digit escape in the source's regexes. -/
def isDigitChar (c : Char) : Bool :=
  48 ≤ c.toNat && c.toNat ≤ 57

/-- Models a regex word character A-Za-z0-9 plus underscore, as used by
the word-boundary assertions in the source's quantity regexes. -/
def isWordChar (c : Char) : Bool :=
  isLowerAlnum c || (65 ≤ c.toNat && c.toNat ≤ 90) || c.toNat = 95

/-- Models Python str.lower on the ASCII range (uppercase A-Z mapped to
lowercase, everything else unchanged), which is all the program's data
exercises. -/
def pyLower (c : Char) : Char :=
  if 65 ≤ c.toNat ∧ c.toNat ≤ 90 then Char.ofNat (c.toNat + 32) else c

/-- Modelled from the Python stdlib: the net effect of unicodedata
NFKD decomposition followed by removal of combining marks, for the
Latin accented letters that Portuguese product data contains.  Each
precomposed accented letter decomposes to its base letter plus a
combining mark, which strip_accents then drops; ASCII characters are
untouched. -/
def accentTable : List (Char × Char) :=
  [('á', 'a'), ('à', 'a'), ('â', 'a'), ('ã', 'a'), ('ä', 'a'),
   ('é', 'e'), ('è', 'e'), ('ê', 'e'), ('ë', 'e'),
   ('í', 'i'), ('ì', 'i'), ('î', 'i'), ('ï', 'i'),
   ('ó', 'o'), ('ò', 'o'), ('ô', 'o'), ('õ', 'o'), ('ö', 'o'),
   ('ú', 'u'), ('ù', 'u'), ('û', 'u'), ('ü', 'u'),
   ('ç', 'c'), ('ñ', 'n'),
   ('Á', 'A'), ('À', 'A'), ('Â', 'A'), ('Ã', 'A'), ('Ä', 'A'),
   ('É', 'E'), ('È', 'E'), ('Ê', 'E'), ('Ë', 'E'),
   ('Í', 'I'), ('Ì', 'I'), ('Î', 'I'), ('Ï', 'I'),
   ('Ó', 'O'), ('Ò', 'O'), ('Ô', 'O'), ('Õ', 'O'), ('Ö', 'O'),
   ('Ú', 'U'), ('Ù', 'U'), ('Û', 'U'), ('Ü', 'U'),
   ('Ç', 'C'), ('Ñ', 'N')]

/-- Per-character accent folding backing strip_accents. -/
def foldAccent (c : Char) : Char :=
  match accentTable.find? (fun p => p.1 == c) with
  | some p => p.2
  | none => c

/-- Embeds strip_accents from the source: NFKD-normalize and drop
combining marks (modelled by per-character accent folding). -/
def strip_accents (s : String) : String :=
  ⟨s.data.map foldAccent⟩

/-- List-level body of normalize_token: strip accents, lower-case,
remove whitespace, then keep only a-z0-9, in the source's order. -/
def normList (l : List Char) : List Char :=
  (((l.map foldAccent).map pyLower).filter (fun c => !(isPySpace c))).filter
    isLowerAlnum

/-- Embeds normalize_token from the source (the string branch): strip
accents, lower-case, delete whitespace, delete every character outside
a-z0-9. -/
def normalize_token (s : String) : String :=
  ⟨normList s.data⟩

/-- Embeds normalize_token's isinstance guard: a non-string argument
(modelled as none) yields the empty key. -/
def normalize_token_any : Option String → String
  | none => ""
  | some s => normalize_token s

/-- Boolean test that the character list n occurs at the front of h,
backing the embedding of the Python substring operator. -/
def hasPref : List Char → List Char → Bool
  | [], _ => true
  | _ :: _, [] => false
  | a :: as, b :: bs => a == b && hasPref as bs

/-- Boolean test that n occurs somewhere inside h. -/
def hasSub (n : List Char) : List Char → Bool
  | [] => hasPref n []
  | c :: t => hasPref n (c :: t) || hasSub n t

/-- Embeds the Python expression needle in hay on strings. -/
def containsSub (needle hay : String) : Bool :=
  hasSub needle.data hay.data

theorem hasSub_head_mem {a : Char} {as h : List Char}
    (hs : hasSub (a :: as) h = true) : a ∈ h := by
  induction h with
  | nil => simp [hasSub, hasPref] at hs
  | cons c t ih =>
    simp only [hasSub, Bool.or_eq_true] at hs
    rcases hs with hp | ht
    · simp only [hasPref, Bool.and_eq_true, beq_iff_eq] at hp
      exact hp.1 ▸ List.mem_cons_self c t
    · exact List.mem_cons_of_mem c (ih ht)

theorem accentTable_keys_not_alnum :
    accentTable.all (fun p => !(isLowerAlnum p.1)) = true := by decide

theorem foldAccent_fixed {c : Char} (h : isLowerAlnum c = true) :
    foldAccent c = c := by
  unfold foldAccent
  cases hf : accentTable.find? (fun p => p.1 == c) with
  | none => rfl
  | some p =>
    exfalso
    have hpc := List.find?_some hf
    have hpm : p ∈ accentTable := List.mem_of_find?_eq_some hf
    have hna := List.all_eq_true.mp accentTable_keys_not_alnum p hpm
    simp only [beq_iff_eq] at hpc
    rw [hpc] at hna
    simp [h] at hna

theorem pyLower_fixed {c : Char} (h : isLowerAlnum c = true) :
    pyLower c = c := by
  unfold pyLower
  rw [if_neg]
  simp only [isLowerAlnum, Bool.or_eq_true, Bool.and_eq_true,
    decide_eq_true_eq] at h
  omega

theorem isPySpace_of_alnum {c : Char} (h : isLowerAlnum c = true) :
    isPySpace c = false := by
  simp only [isLowerAlnum, Bool.or_eq_true, Bool.and_eq_true,
    decide_eq_true_eq] at h
  simp only [isPySpace, Bool.or_eq_false_iff, decide_eq_false_iff_not]
  omega

theorem normList_mem_alnum {l : List Char} {c : Char}
    (h : c ∈ normList l) : isLowerAlnum c = true :=
  List.of_mem_filter h

theorem normList_fixed {l : List Char}
    (h : ∀ c ∈ l, isLowerAlnum c = true) : normList l = l := by
  induction l with
  | nil => rfl
  | cons c t ih =>
    have hc : isLowerAlnum c = true := h c (List.mem_cons_self c t)
    have ht : ∀ x ∈ t, isLowerAlnum x = true :=
      fun x hx => h x (List.mem_cons_of_mem c hx)
    have hstep : normList (c :: t) = c :: normList t := by
      simp [normList, foldAccent_fixed hc, pyLower_fixed hc,
        isPySpace_of_alnum hc, hc]
    rw [hstep, ih ht]

theorem normalize_token_idem (s : String) :
    normalize_token (normalize_token s) = normalize_token s := by
  simp only [normalize_token]
  congr 1
  exact normList_fixed (fun c hc => normList_mem_alnum hc)

/-- Numeric value of an ASCII digit character. -/
def digitVal (c : Char) : Nat := c.toNat - 48

/-- Decimal value of a digit-character run, as Python int() reads a
captured digit group. -/
def readNat (ds : List Char) : Nat :=
  ds.foldl (fun a c => a * 10 + digitVal c) 0

/-- Embeds Python str.strip on a character list: drop leading and
trailing whitespace. -/
def pyStrip (l : List Char) : String :=
  ⟨((l.dropWhile isPySpace).reverse.dropWhile isPySpace).reverse⟩

/-- Case-insensitive literal matcher: lit (given lower-cased) matched
against the front of l, returning the remainder on success.  Embeds the
literal parts of the source's IGNORECASE regexes. -/
def matchLitCI : List Char → List Char → Option (List Char)
  | [], l => some l
  | _ :: _, [] => none
  | a :: as, c :: cs => if pyLower c = a then matchLitCI as cs else none

/-- Leftmost-match search: try the position matcher f at every suffix,
left to right, as re.search does for the unanchored patterns. -/
def scanFirst (f : List Char → Option α) : List Char → Option α
  | [] => f []
  | c :: rest =>
    match f (c :: rest) with
    | some a => some a
    | none => scanFirst f rest

/-- Leftmost-match search for patterns starting with a word-boundary
assertion before a word character: the position matcher f is tried only
where the previous character (none at the start) is not a word
character. -/
def scanFirstBound (f : List Char → Option α) :
    Option Char → List Char → Option α
  | _, [] => none
  | prev, c :: rest =>
    match (if (match prev with
               | none => true
               | some p => !(isWordChar p)) then f (c :: rest)
           else none) with
    | some a => some a
    | none => scanFirstBound f (some c) rest

/-- Common tail of the quantity patterns: optional whitespace, a colon
or equals sign, optional whitespace, then a nonempty digit run (the
captured group). -/
def sepThenDigits (r : List Char) : Option Nat :=
  match r.dropWhile isPySpace with
  | c :: r2 =>
    if c = ':' ∨ c = '=' then
      match (r2.dropWhile isPySpace).takeWhile isDigitChar with
      | [] => none
      | ds => some (readNat ds)
    else none
  | [] => none

/-- Embeds QTD_PATTERNS entry one: the labeled form Quantity-colon
followed by optional whitespace and digits, case-insensitive. -/
def qtdP1 (l : List Char) : Option Nat :=
  scanFirst (fun r =>
    (matchLitCI "quantity:".data r).bind fun r1 =>
      match (r1.dropWhile isPySpace).takeWhile isDigitChar with
      | [] => none
      | ds => some (readNat ds)) l

/-- Embeds QTD_PATTERNS entry two: a double-quoted Quantity key, then a
colon or equals sign, then an optionally double-quoted digit run. -/
def qtdP2 (l : List Char) : Option Nat :=
  scanFirst (fun r =>
    (matchLitCI "\"quantity\"".data r).bind fun r1 =>
      match r1.dropWhile isPySpace with
      | c :: r2 =>
        if c = ':' ∨ c = '=' then
          let r3 := r2.dropWhile isPySpace
          let r4 := match r3 with
                    | '"' :: t => t
                    | _ => r3
          match r4.takeWhile isDigitChar with
          | [] => none
          | ds => some (readNat ds)
        else none
      | [] => none) l

/-- Embeds QTD_PATTERNS entry three: a word boundary, the short key
qty, then colon or equals and digits. -/
def qtdP3 (l : List Char) : Option Nat :=
  scanFirstBound (fun r =>
    (matchLitCI "qty".data r).bind sepThenDigits) none l

/-- Embeds QTD_PATTERNS entry four: a word boundary, the long key
quantity, then colon or equals and digits. -/
def qtdP4 (l : List Char) : Option Nat :=
  scanFirstBound (fun r =>
    (matchLitCI "quantity".data r).bind sepThenDigits) none l

/-- Embeds QTD_PATTERNS entry five: anchored at the start of the text,
optional whitespace, a bracketed digit run, then one whitespace
character. -/
def qtdP5 (l : List Char) : Option Nat :=
  match l.dropWhile isPySpace with
  | '[' :: r =>
    match r.takeWhile isDigitChar with
    | [] => none
    | ds =>
      match r.dropWhile isDigitChar with
      | ']' :: c :: _ => if isPySpace c then some (readNat ds) else none
      | _ => none
  | _ => none

/-- Embeds QTD_PATTERNS from the source: the ordered list of quantity
matchers, tried first to last. -/
def QTD_PATTERNS : List (List Char → Option Nat) :=
  [qtdP1, qtdP2, qtdP3, qtdP4, qtdP5]

/-- Embeds extract_quantity_from_text: try each pattern in order and
return the first captured integer; with no match (or a non-string
input, modelled as none) return the fallback, which defaults to 1. -/
def extract_quantity_from_text (text : Option String)
    (fallback : Option Nat) : Nat :=
  match text with
  | some s =>
    match QTD_PATTERNS.findSome? (fun pat => pat s.data) with
    | some n => n
    | none => fallback.getD 1
  | none => fallback.getD 1

/-- Models the character class of SKU_IN_PRODUCT_INFO's captured group:
ASCII letters, digits, underscore, hyphen, dot and space. -/
def skuClassOk (c : Char) : Bool :=
  isWordChar c || c = '-' || c = '.' || c = ' '

/-- Models the character class of VAR_IN_PRODUCT_INFO's captured group.
The source writes the class in a raw string as caret, semicolon,
backslash-backslash, n: it therefore excludes the semicolon, the
backslash and the letter n (both cases, since the pattern is compiled
with IGNORECASE) - not the newline the neighbouring prose suggests. -/
def varClassOk (c : Char) : Bool :=
  !(c = ';' || c = '\\' || c = 'n' || c = 'N')

/-- Position matcher for a labeled capture: the lower-cased literal
label, optional whitespace, a colon, optional whitespace, then a
nonempty run of class characters, stripped.  When the run cannot start
(next character outside the class) but at least one whitespace
character preceded it, the regex engine backtracks the whitespace star
by one and captures that single space, which strips to the empty
string. -/
def labeledCapture (lab : List Char) (classOk : Char → Bool)
    (l : List Char) : Option String :=
  (matchLitCI lab l).bind fun r =>
    match r.dropWhile isPySpace with
    | ':' :: r2 =>
      let ws := r2.takeWhile isPySpace
      let rest := r2.dropWhile isPySpace
      match rest with
      | c :: _ =>
        if classOk c then some (pyStrip (rest.takeWhile classOk))
        else if ws.isEmpty then none else some ""
      | [] => if ws.isEmpty then none else some ""
    | _ => none

/-- Embeds the search for SKU_IN_PRODUCT_INFO. -/
def searchSku (l : List Char) : Option String :=
  scanFirst (labeledCapture "sku reference no.".data skuClassOk) l

/-- Embeds the search for VAR_IN_PRODUCT_INFO. -/
def searchVar (l : List Char) : Option String :=
  scanFirst (labeledCapture "variation name".data varClassOk) l

/-- Embeds extract_sku_and_var_from_text: empty or all-whitespace text
yields two empty fields; otherwise each regex's first match is captured
and stripped, defaulting to empty. -/
def extract_sku_and_var_from_text (text : String) : String × String :=
  if text.data.all isPySpace then ("", "")
  else ((searchSku text.data).getD "", (searchVar text.data).getD "")

/-- Single left-to-right pass implementing the leftmost match of the
kit-quantity regex: a digit run between word boundaries.  run carries
the value of a digit run whose start position satisfied the boundary;
a following word character invalidates the run, any other character or
the end of the text closes the match. -/
def kitScan : Bool → Option Nat → List Char → Option Nat
  | _, run, [] => run
  | prevWord, run, c :: rest =>
    if isDigitChar c then
      match run with
      | some n => kitScan true (some (n * 10 + digitVal c)) rest
      | none =>
        if prevWord then kitScan true none rest
        else kitScan true (some (digitVal c)) rest
    else
      match run with
      | some n => if isWordChar c then kitScan true none rest else some n
      | none => kitScan (isWordChar c) none rest

/-- Embeds quant_kit_from_variation: on empty or all-whitespace
variation text the kit quantity is 1; otherwise the first integer token
bounded by word boundaries, defaulting to 1 when none occurs. -/
def quant_kit_from_variation (variation : String) : Nat :=
  if variation.data.all isPySpace then 1
  else
    match kitScan false none variation.data with
    | some n => n
    | none => 1

/-- Embeds compute_category_from_variation: rule (a) gives the
enc-capa category on encosto together with capaextra; rule (b) gives
the enc-base category on encosto together with comcapa (or the literal
plus-capa, tested against the normalized text) when the initial
category is not already the enc-capa category; otherwise the initial
category stands. -/
def compute_category_from_variation (initial_category variation
    enc_capa_cat enc_base_cat : String) : String :=
  let v_norm := normalize_token variation
  let has_encosto := containsSub "encosto" v_norm
  let has_capa_extra := containsSub "capaextra" v_norm
  let has_com_capa := containsSub "comcapa" v_norm ||
    containsSub "+capa" v_norm
  if has_encosto && has_capa_extra then enc_capa_cat
  else if has_encosto && has_com_capa &&
      !(initial_category == enc_capa_cat) then enc_base_cat
  else initial_category

/-- Category record of the configuration: normalized aliases and the
output format tag (the pipeline never branches on the tag). -/
structure CatMeta where
  aliases : List String
  output_format : String
deriving DecidableEq

/-- The configuration consumed by the pipeline: ordered priorities, the
category table in insertion order, and the two special-rule category
names (defaulted to ENC_CAPA and ENC by the loader). -/
structure Config where
  priorities : List String
  categories : List (String × CatMeta)
  enc_capa_category : String
  enc_base_category : String
deriving DecidableEq

/-- Embeds the alias scan of compute_outputs_single_item: the first
category in table order whose alias list holds the normalized SKU, or
the empty string. -/
def lookupCategory (cfg : Config) (sku_norm : String) : String :=
  match cfg.categories.find? (fun p => p.2.aliases.contains sku_norm) with
  | some p => p.1
  | none => ""

/-- Tag distinguishing the two output kinds a classified item emits. -/
inductive OutType
  | numeric
  | enc_capa
deriving DecidableEq

/-- One per-category output of an item: its kind tag and value. -/
structure OutputVal where
  otype : OutType
  value : Nat
deriving DecidableEq

/-- The per-item diagnostic record, with every field the source
writes. -/
structure Diag where
  sku_raw : String
  sku_norm : String
  category : String
  kit_qty : Nat
  kits_purchased : Nat
  unidades : Nat
  variation_seen : String
deriving DecidableEq

/-- Category-resolution steps of compute_outputs_single_item: alias
lookup on the normalized SKU, then the variation-driven override with
the configured special-rule names. -/
def resolve_item_category (cfg : Config) (sku_raw variation : String) :
    String :=
  compute_category_from_variation (lookupCategory cfg (normalize_token
    sku_raw)) variation cfg.enc_capa_category cfg.enc_base_category

/-- Embeds compute_outputs_single_item: kit quantity from the
variation, kits purchased from the block quantity (1 when falsy),
units as their product, category by alias lookup then variation
override; a counted-marker output when the resolved category is the
configured enc-capa category and the normalized variation contains
capaextra, a numeric output for any other nonempty category, no output
for an empty one; and always one diagnostic record. -/
def compute_outputs_single_item (sku_raw variation : String)
    (qty_from_block : Nat) (cfg : Config) :
    List (String × OutputVal) × Diag :=
  let kit_qty := quant_kit_from_variation variation
  let kits_purchased := if qty_from_block = 0 then 1 else qty_from_block
  let unidades := kit_qty * kits_purchased
  let category := resolve_item_category cfg sku_raw variation
  let outputs : List (String × OutputVal) :=
    if category = "" then []
    else if category = cfg.enc_capa_category ∧
        containsSub "capaextra" (normalize_token variation) = true then
      [(category, ⟨OutType.enc_capa, kits_purchased⟩)]
    else [(category, ⟨OutType.numeric, unidades⟩)]
  (outputs, ⟨sku_raw, normalize_token sku_raw, category, kit_qty,
    kits_purchased, unidades, variation⟩)

/-- Position matcher for BLOCK_RE: a bracketed digit run followed by a
nonempty greedy run of characters other than an opening bracket;
returns the matched text and the remaining input. -/
def matchBlockAt : List Char → Option (List Char × List Char)
  | [] => none
  | c :: r =>
    if c = '[' then
      if (r.takeWhile isDigitChar).isEmpty then none
      else
        match r.dropWhile isDigitChar with
        | ']' :: r2 =>
          if (r2.takeWhile (fun x => !(x = '['))).isEmpty then none
          else some ('[' :: r.takeWhile isDigitChar ++
              ']' :: r2.takeWhile (fun x => !(x = '[')),
            r2.dropWhile (fun x => !(x = '[')))
        | _ => none
    else none

/-- Embeds findall for BLOCK_RE: scan left to right, on a match record
it and resume after its end, otherwise advance one character.  The
fuel argument (instantiated with the input length) only bounds the
recursion. -/
def blockFindAux : Nat → List Char → List (List Char)
  | 0, _ => []
  | _ + 1, [] => []
  | fuel + 1, c :: rest =>
    match matchBlockAt (c :: rest) with
    | some (blk, r) => blk :: blockFindAux fuel r
    | none => blockFindAux fuel rest

/-- Embeds BLOCK_RE.findall on a string. -/
def block_findall (s : String) : List String :=
  (blockFindAux s.data.length s.data).map (fun l => ⟨l⟩)

/-- Embeds the block selection of run_process: findall matches when
any, else the whole text as a single block, and no block at all for a
non-string field. -/
def blocks_of : Option String → List String
  | some s =>
    let bs := block_findall s
    if bs.isEmpty then [s] else bs
  | none => []

/-- One input row of the order table: the grouping key and the free
product-info text (none models a non-string cell). -/
structure InputRow where
  order_sn : String
  product_info : Option String

/-- Value of one cell of the detail or summary tables: empty, a plain
number, or the counted-marker text rendered from a count (the string
of the count, a space, a plus sign, a space and the letter C). -/
inductive Cell
  | blank
  | num (n : Nat)
  | marker (n : Nat)
deriving DecidableEq

/-- Leading integer of a cell in the sense of the aggregation lambdas:
str of the cell, split on whitespace, int of the first token; an empty
cell has none (it is filtered before the parse in the per-order lambda
and caught by the except clause in the total row). -/
def leadInt : Cell → Option Nat
  | Cell.blank => none
  | Cell.num k => some k
  | Cell.marker n => some n

/-- Numeric view of a cell under pandas to_numeric with coercion: a
plain number is itself, the empty cell and the marker text coerce to
not-a-number. -/
def asNum : Cell → Option Nat
  | Cell.num k => some k
  | _ => none

/-- Embeds sum_or_blank from run_process: coerce the column to
numbers, sum requiring at least one numeric value, and render the
empty cell when there is none. -/
def sum_or_blank (cells : List Cell) : Cell :=
  if (cells.filterMap asNum).isEmpty then Cell.blank
  else Cell.num (cells.filterMap asNum).sum

/-- Per-order accumulation state of run_process's block loop. -/
structure OrderAcc where
  numeric : String → Option Nat
  encCapa : Nat
  skus : List String
  vars : List String
  diags : List Diag

/-- Embeds one iteration of run_process's block loop: extract the
fields and the quantity, compute the item's outputs and diagnostic,
record the raw SKU and variation, and fold the outputs into the
numeric accumulators (a counted-marker output into the dedicated
counter). -/
def foldBlock (cfg : Config) (acc : OrderAcc) (blk : String) : OrderAcc :=
  let ex := extract_sku_and_var_from_text blk
  let qty_blk := extract_quantity_from_text (some blk) (some 1)
  let r := compute_outputs_single_item ex.1 ex.2 qty_blk cfg
  let acc1 : OrderAcc :=
    { acc with
      skus := acc.skus ++ [r.2.sku_raw]
      vars := acc.vars ++ [r.2.variation_seen]
      diags := acc.diags ++ [r.2] }
  r.1.foldl (fun a p =>
    match p.2.otype with
    | OutType.numeric =>
      { a with numeric := fun c =>
          if c = p.1 then some ((a.numeric p.1).getD 0 + p.2.value)
          else a.numeric c }
    | OutType.enc_capa => { a with encCapa := a.encCapa + p.2.value }) acc1

/-- Folds all blocks of one input row, starting from empty
accumulators. -/
def order_accum (cfg : Config) (blocks : List String) : OrderAcc :=
  blocks.foldl (foldBlock cfg) ⟨fun _ => none, 0, [], [], []⟩

/-- One row of the detail table.  The category cells are a function of
the column name; the output table only reads it at the computed output
columns. -/
structure DetailRow where
  order_sn : String
  skuJoin : String
  varJoin : String
  product_info : String
  cell : String → Cell

/-- Embeds the semicolon join of the non-empty raw SKUs or variations
of one order. -/
def joinSemi (l : List String) : String :=
  String.intercalate "; " (l.filter (fun s => !(s = "")))

/-- Embeds the per-row part of run_process: split the product info
into blocks, fold them, and build the detail row whose cells carry the
numeric accumulations, with the counted-marker text written into the
column literally named ENC_CAPA when the counter is positive (this
name is hardcoded in the source, independent of the configured
special-rule category). -/
def process_row (cfg : Config) (row : InputRow) : DetailRow × List Diag :=
  let blocks := blocks_of row.product_info
  let acc := order_accum cfg blocks
  let cellF : String → Cell := fun c =>
    if c = "ENC_CAPA" ∧ 0 < acc.encCapa then Cell.marker acc.encCapa
    else
      match acc.numeric c with
      | some v => Cell.num v
      | none => Cell.blank
  ({ order_sn := row.order_sn
     skuJoin := joinSemi acc.skus
     varJoin := joinSemi acc.vars
     product_info := row.product_info.getD ""
     cell := cellF }, acc.diags)

/-- Lexicographic comparison of character lists by code point, backing
the case-insensitive column sort. -/
def charListLe : List Char → List Char → Bool
  | [], _ => true
  | _ :: _, [] => false
  | a :: as, b :: bs =>
    if a.toNat < b.toNat then true
    else if b.toNat < a.toNat then false
    else charListLe as bs

/-- Models the sort key str.lower comparison of the column sort. -/
def strLeCI (a b : String) : Bool :=
  charListLe (a.data.map pyLower) (b.data.map pyLower)

/-- Stable insertion of one name into a sorted list. -/
def insertSorted (x : String) : List String → List String
  | [] => [x]
  | y :: ys => if strLeCI y x then y :: insertSorted x ys else x :: y :: ys

/-- Models sorted with the lower-case key on the category names. -/
def sortCI (l : List String) : List String :=
  l.foldr insertSorted []

/-- Embeds the column order of run_process: priorities that exist as
categories first, then the remaining categories sorted
case-insensitively. -/
def out_cols (cfg : Config) : List String :=
  let categories := cfg.categories.map (fun p => p.1)
  let prios := cfg.priorities.filter (fun c => categories.contains c)
  let remaining := (sortCI categories).filter (fun c => !(prios.contains c))
  prios ++ remaining

/-- Embeds the per-order aggregation of run_process's groupby: the
column literally named ENC_CAPA is aggregated by summing the leading
integers of its non-empty cells into a plain number, every other
column through sum_or_blank. -/
def summary_cell (col : String) (rows : List DetailRow) : Cell :=
  let cells := rows.map (fun r => r.cell col)
  if col = "ENC_CAPA" then Cell.num ((cells.filterMap leadInt).sum)
  else sum_or_blank cells

/-- Embeds the TOTAL row of run_process: the column literally named
ENC_CAPA re-renders the sum of the leading integers as counted-marker
text, empty when no cell parsed; every other column through
sum_or_blank over the whole detail table. -/
def total_cell (col : String) (rows : List DetailRow) : Cell :=
  let cells := rows.map (fun r => r.cell col)
  if col = "ENC_CAPA" then
    let nums := cells.filterMap leadInt
    if nums.isEmpty then Cell.blank else Cell.marker nums.sum
  else sum_or_blank cells

/-- Numeric value a cell contributes to an aggregation check: nothing
for an empty cell, the number of a numeric cell, the leading count of
a counted-marker cell. -/
def cellVal : Cell → Nat
  | Cell.blank => 0
  | Cell.num k => k
  | Cell.marker n => n

/-- Distinct order keys of the detail table, each summary row carrying
one of them. -/
def groupKeys (rows : List DetailRow) : List String :=
  (rows.map (fun r => r.order_sn)).dedup

/-- Constituent detail rows of one order's group. -/
def rowsFor (rows : List DetailRow) (k : String) : List DetailRow :=
  rows.filter (fun r => r.order_sn == k)

/-- Sample configuration with the default special rules, used by the
concrete instances below. -/
def sampleConfig : Config :=
  { priorities := ["PR", "R70", "ENC", "ENC_CAPA", "XUXAO", "BB", "RAMPA"]
    categories := [("PR", ⟨["pr1"], "numeric"⟩),
                   ("R70", ⟨["r701"], "numeric"⟩),
                   ("ENC", ⟨["enc1"], "numeric"⟩),
                   ("ENC_CAPA", ⟨["kitcapa"], "numeric"⟩)]
    enc_capa_category := "ENC_CAPA"
    enc_base_category := "ENC" }

/-- Sample order row resolving to a plain numeric output. -/
def sampleRowA : InputRow :=
  ⟨"A", some "[1] SKU Reference No. : R701; Variation Name : 2 units; Quantity: 4"⟩

/-- Sample order row resolving to a counted-marker output. -/
def sampleRowB : InputRow :=
  ⟨"B", some "[1] SKU Reference No. : KITCAPA; Variation Name : Capa Extra; Quantity: 2"⟩

/-- Configuration whose enc-capa category is not named ENC_CAPA. -/
def movedConfig : Config :=
  { priorities := []
    categories := [("CAPAX", ⟨["kitcapa"], "numeric"⟩)]
    enc_capa_category := "CAPAX"
    enc_base_category := "ENC" }

/-- Order row producing a counted-marker output under movedConfig. -/
def movedRow : InputRow :=
  ⟨"X", some "[1] SKU Reference No. : KITCAPA; Variation Name : Capa Extra; Quantity: 3"⟩

/-- C9: normalize is idempotent, its output consists only of
characters in a-z0-9, and non-string as well as empty input yields the
empty key. -/
theorem normalize_token_spec (s : String) :
    normalize_token (normalize_token s) = normalize_token s
    ∧ (normalize_token s).data.all isLowerAlnum = true
    ∧ normalize_token_any none = ""
    ∧ normalize_token "" = "" := by
  refine ⟨normalize_token_idem s, ?_, rfl, rfl⟩
  exact List.all_eq_true.mpr (fun c hc => normList_mem_alnum hc)

/-- C5: whenever the normalized variation contains both encosto and
capaextra, the resolver returns the enc-capa category regardless of the
initial (alias-resolved) category, the empty category included. -/
theorem resolve_capaextra_override (initial_category v capa base : String)
    (h1 : containsSub "encosto" (normalize_token v) = true)
    (h2 : containsSub "capaextra" (normalize_token v) = true) :
    compute_category_from_variation initial_category v capa base = capa := by
  simp [compute_category_from_variation, h1, h2]

/-- Closed instance of resolve_capaextra_override: a SKU aliased to PR
with variation Encosto + Capa Extra resolves to the enc-capa
category. -/
theorem resolve_capaextra_override_witness :
    compute_category_from_variation "PR" "Encosto + Capa Extra"
      "ENC_CAPA" "ENC" = "ENC_CAPA" :=
  resolve_capaextra_override "PR" "Encosto + Capa Extra" "ENC_CAPA" "ENC"
    (by decide) (by decide)

/-- C1: the resolver leaves the variation Encosto + Capa at the step-1
category (here PR), instead of the enc-base category the specification
asserts, because the literal plus-capa test is made against the
normalized variation, from which every plus sign has been removed - so
that branch of the disjunction can never hold, for any input
whatsoever. -/
theorem resolve_plus_capa_unreachable :
    compute_category_from_variation "PR" "Encosto + Capa" "ENC_CAPA"
      "ENC" = "PR"
    ∧ ∀ v : String, containsSub "+capa" (normalize_token v) = false := by
  refine ⟨by decide, ?_⟩
  intro v
  cases htrue : containsSub "+capa" (normalize_token v) with
  | false => rfl
  | true =>
    exfalso
    have h2 : hasSub ('+' :: "capa".data) (normalize_token v).data = true :=
      htrue
    have hmem : '+' ∈ normList v.data := hasSub_head_mem h2
    have hal := normList_mem_alnum hmem
    simp [isLowerAlnum] at hal

/-- C8 (amended): an item whose normalized SKU is in no configured
alias list and whose variation triggers neither override rule resolves
to the empty category and emits no output, while its diagnostic record
still carries the empty category. -/
theorem unmapped_sku_no_output (sku variation : String) (qty : Nat)
    (cfg : Config)
    (hun : cfg.categories.all
      (fun p => !(p.2.aliases.contains (normalize_token sku))) = true)
    (hno1 : ¬(containsSub "encosto" (normalize_token variation) = true ∧
              containsSub "capaextra" (normalize_token variation) = true))
    (hno2 : ¬(containsSub "encosto" (normalize_token variation) = true ∧
              (containsSub "comcapa" (normalize_token variation) = true ∨
               containsSub "+capa" (normalize_token variation) = true))) :
    (compute_outputs_single_item sku variation qty cfg).1 = []
    ∧ (compute_outputs_single_item sku variation qty cfg).2.category = "" := by
  have hlook : lookupCategory cfg (normalize_token sku) = "" := by
    unfold lookupCategory
    have hnone : cfg.categories.find?
        (fun p => p.2.aliases.contains (normalize_token sku)) = none := by
      rw [List.find?_eq_none]
      intro p hp
      have hh := List.all_eq_true.mp hun p hp
      simpa using hh
    rw [hnone]
  have hcat : resolve_item_category cfg sku variation = "" := by
    unfold resolve_item_category
    rw [hlook]
    unfold compute_category_from_variation
    cases he : containsSub "encosto" (normalize_token variation) with
    | false => simp [he]
    | true =>
      cases hce : containsSub "capaextra" (normalize_token variation) with
      | true => exact absurd ⟨he, hce⟩ hno1
      | false =>
        cases hcc : containsSub "comcapa" (normalize_token variation) with
        | true => exact absurd ⟨he, Or.inl hcc⟩ hno2
        | false =>
          cases hpc : containsSub "+capa" (normalize_token variation) with
          | true => exact absurd ⟨he, Or.inr hpc⟩ hno2
          | false => simp [he, hce, hcc, hpc]
  constructor
  · simp [compute_outputs_single_item, hcat]
  · simp [compute_outputs_single_item, hcat]

/-- Closed instance of unmapped_sku_no_output at an unmapped SKU with
an override-free variation. -/
theorem unmapped_sku_no_output_witness :
    (compute_outputs_single_item "XYZ" "blue" 2 sampleConfig).1 = []
    ∧ (compute_outputs_single_item "XYZ" "blue" 2
        sampleConfig).2.category = "" :=
  unmapped_sku_no_output "XYZ" "blue" 2 sampleConfig (by decide)
    (by decide) (by decide)

/-- C8 (counterexample): an item whose normalized SKU matches no alias
but whose variation contains encosto with capaextra is reclassified by
the override to the enc-capa category and does produce an output, so
the unqualified claim fails. -/
theorem unmapped_sku_counterexample :
    sampleConfig.categories.all
      (fun p => !(p.2.aliases.contains (normalize_token "XYZ"))) = true
    ∧ (compute_outputs_single_item "XYZ" "Encosto + Capa Extra" 1
        sampleConfig).2.category = "ENC_CAPA"
    ∧ (compute_outputs_single_item "XYZ" "Encosto + Capa Extra" 1
        sampleConfig).1.isEmpty = false
    ∧ decide ((compute_outputs_single_item "XYZ" "Encosto + Capa Extra" 1
        sampleConfig).2.category = "") = false := by
  decide

/-- C6: kits purchased is the block quantity defaulted to 1 when
falsy; units are the kit quantity times kits purchased; an item whose
resolved (nonempty) category is the configured enc-capa category with
capaextra in the normalized variation emits one counted-marker output
valued at kits purchased, and any other item with a nonempty resolved
category emits one numeric output valued at the units. -/
theorem compute_outputs_selection (sku variation : String) (qty : Nat)
    (cfg : Config) :
    ((compute_outputs_single_item sku variation qty cfg).2.kits_purchased
      = if qty = 0 then 1 else qty)
    ∧ ((compute_outputs_single_item sku variation qty cfg).2.unidades
      = (compute_outputs_single_item sku variation qty cfg).2.kit_qty *
        (compute_outputs_single_item sku variation qty cfg).2.kits_purchased)
    ∧ ((compute_outputs_single_item sku variation qty
          cfg).2.category = cfg.enc_capa_category →
        containsSub "capaextra" (normalize_token variation) = true →
        ¬((compute_outputs_single_item sku variation qty
            cfg).2.category = "") →
        (compute_outputs_single_item sku variation qty cfg).1 =
          [((compute_outputs_single_item sku variation qty cfg).2.category,
            ⟨OutType.enc_capa, (compute_outputs_single_item sku variation
              qty cfg).2.kits_purchased⟩)])
    ∧ (¬((compute_outputs_single_item sku variation qty
          cfg).2.category = "") →
        ¬((compute_outputs_single_item sku variation qty
            cfg).2.category = cfg.enc_capa_category ∧
          containsSub "capaextra" (normalize_token variation) = true) →
        (compute_outputs_single_item sku variation qty cfg).1 =
          [((compute_outputs_single_item sku variation qty cfg).2.category,
            ⟨OutType.numeric, (compute_outputs_single_item sku variation
              qty cfg).2.unidades⟩)]) := by
  refine ⟨rfl, rfl, ?_, ?_⟩
  · intro h1 h2 h3
    simp only [compute_outputs_single_item] at h1 h3 ⊢
    rw [if_neg h3, if_pos ⟨h1, h2⟩]
  · intro h3 h4
    simp only [compute_outputs_single_item] at h3 h4 ⊢
    rw [if_neg h3, if_neg h4]

/-- Closed instances of compute_outputs_selection: the counted-marker
branch at quantity 3 yields the kit count 3, and a plain numeric item
yields its units. -/
theorem compute_outputs_selection_witness :
    (compute_outputs_single_item "KITCAPA" "Capa Extra" 3
      sampleConfig).1 = [("ENC_CAPA", ⟨OutType.enc_capa, 3⟩)]
    ∧ (compute_outputs_single_item "R701" "2 units" 4
      sampleConfig).1 = [("R70", ⟨OutType.numeric, 8⟩)] := by
  have h1 := compute_outputs_selection "KITCAPA" "Capa Extra" 3 sampleConfig
  have h2 := compute_outputs_selection "R701" "2 units" 4 sampleConfig
  exact ⟨(h1.2.2.1 (by decide) (by decide) (by decide)).trans (by decide),
         (h2.2.2.2 (by decide) (by decide)).trans (by decide)⟩

/-- C7: a non-string input returns the fallback default; the five
quantity patterns are tried in their list order with the first match
deciding the result and the later patterns ignored; with no match the
fallback default is returned; and a block holding both a labeled
Quantity 5 and a bare qty 9 yields 5. -/
theorem quantity_pattern_order (s : String) (fb : Option Nat) :
    extract_quantity_from_text none fb = fb.getD 1
    ∧ (∀ n, qtdP1 s.data = some n →
        extract_quantity_from_text (some s) fb = n)
    ∧ (qtdP1 s.data = none → ∀ n, qtdP2 s.data = some n →
        extract_quantity_from_text (some s) fb = n)
    ∧ (qtdP1 s.data = none → qtdP2 s.data = none →
        ∀ n, qtdP3 s.data = some n →
        extract_quantity_from_text (some s) fb = n)
    ∧ (qtdP1 s.data = none → qtdP2 s.data = none → qtdP3 s.data = none →
        ∀ n, qtdP4 s.data = some n →
        extract_quantity_from_text (some s) fb = n)
    ∧ (qtdP1 s.data = none → qtdP2 s.data = none → qtdP3 s.data = none →
        qtdP4 s.data = none → ∀ n, qtdP5 s.data = some n →
        extract_quantity_from_text (some s) fb = n)
    ∧ (qtdP1 s.data = none → qtdP2 s.data = none → qtdP3 s.data = none →
        qtdP4 s.data = none → qtdP5 s.data = none →
        extract_quantity_from_text (some s) fb = fb.getD 1)
    ∧ extract_quantity_from_text (some "qty=9; Quantity: 5") (some 1) = 5 := by
  refine ⟨rfl, ?_, ?_, ?_, ?_, ?_, ?_, by decide⟩
  · intro n h1
    simp [extract_quantity_from_text, QTD_PATTERNS, List.findSome?, h1]
  · intro h1 n h2
    simp [extract_quantity_from_text, QTD_PATTERNS, List.findSome?, h1, h2]
  · intro h1 h2 n h3
    simp [extract_quantity_from_text, QTD_PATTERNS, List.findSome?, h1, h2,
      h3]
  · intro h1 h2 h3 n h4
    simp [extract_quantity_from_text, QTD_PATTERNS, List.findSome?, h1, h2,
      h3, h4]
  · intro h1 h2 h3 h4 n h5
    simp [extract_quantity_from_text, QTD_PATTERNS, List.findSome?, h1, h2,
      h3, h4, h5]
  · intro h1 h2 h3 h4 h5
    simp [extract_quantity_from_text, QTD_PATTERNS, List.findSome?, h1, h2,
      h3, h4, h5]

/-- Closed instances of quantity_pattern_order: the first pattern wins
on a labeled quantity, and a patternless block falls back to 1. -/
theorem quantity_pattern_order_witness :
    extract_quantity_from_text (some "Quantity: 7") none = 7
    ∧ extract_quantity_from_text (some "hello") none = 1 :=
  ⟨(quantity_pattern_order "Quantity: 7" none).2.1 7 (by decide),
   (quantity_pattern_order "hello" none).2.2.2.2.2.2.1 (by decide)
     (by decide) (by decide) (by decide) (by decide)⟩

/-- C3 (amended): the counted-marker text of a detail row goes into
the column literally named ENC_CAPA whenever the order's counter is
positive, and every other column carries only the numeric
accumulation, whatever special-rule category name the configuration
declares. -/
theorem marker_written_to_literal_column (cfg : Config) (row : InputRow) :
    (0 < (order_accum cfg (blocks_of row.product_info)).encCapa →
      (process_row cfg row).1.cell "ENC_CAPA" =
        Cell.marker (order_accum cfg (blocks_of row.product_info)).encCapa)
    ∧ (∀ col, ¬(col = "ENC_CAPA") →
      (process_row cfg row).1.cell col =
        match (order_accum cfg (blocks_of row.product_info)).numeric col with
        | some v => Cell.num v
        | none => Cell.blank) := by
  constructor
  · intro h
    simp only [process_row]
    rw [if_pos ⟨by trivial, h⟩]
  · intro col hcol
    simp only [process_row]
    rw [if_neg (fun hc => hcol hc.1)]

/-- Closed instance of marker_written_to_literal_column under a
configuration whose enc-capa category is CAPAX: the marker lands in
the ENC_CAPA cell and the CAPAX cell stays empty. -/
theorem marker_written_to_literal_column_witness :
    (process_row movedConfig movedRow).1.cell "ENC_CAPA" = Cell.marker 3
    ∧ (process_row movedConfig movedRow).1.cell "CAPAX" = Cell.blank := by
  have h := marker_written_to_literal_column movedConfig movedRow
  exact ⟨(h.1 (by decide)).trans (by decide),
         (h.2 "CAPAX" (by decide)).trans (by decide)⟩

/-- C3 (counterexample): with enc_capa_category configured as CAPAX, a
counted item leaves the CAPAX column empty; the marker goes to the
hardcoded name ENC_CAPA, which is not even among the output columns of
this configuration. -/
theorem marker_column_counterexample :
    movedConfig.enc_capa_category = "CAPAX"
    ∧ 0 < (order_accum movedConfig (blocks_of movedRow.product_info)).encCapa
    ∧ (process_row movedConfig movedRow).1.cell "CAPAX" = Cell.blank
    ∧ decide ((process_row movedConfig movedRow).1.cell "CAPAX" =
        Cell.marker 3) = false
    ∧ (process_row movedConfig movedRow).1.cell "ENC_CAPA" = Cell.marker 3
    ∧ (out_cols movedConfig).contains "ENC_CAPA" = false := by
  decide

/-- C2 (amended): a per-order summary cell of the column literally
named ENC_CAPA is the plain number summing the leading integers of the
order's non-empty cells - not re-rendered as counted-marker text - and
it is the number zero, not an empty cell, when the order has no
non-empty cell there; in particular the sample counted order
summarizes to the number 2. -/
theorem summary_marker_cell_value (orderRows : List DetailRow) :
    summary_cell "ENC_CAPA" orderRows =
      Cell.num ((orderRows.map (fun r => r.cell "ENC_CAPA")).filterMap
        leadInt).sum
    ∧ ((orderRows.map (fun r => r.cell "ENC_CAPA")).filterMap leadInt
        = [] → summary_cell "ENC_CAPA" orderRows = Cell.num 0)
    ∧ summary_cell "ENC_CAPA" [(process_row sampleConfig sampleRowB).1]
        = Cell.num 2 := by
  refine ⟨by simp [summary_cell], ?_, by decide⟩
  intro h
  simp [summary_cell, h]

/-- Closed instance of summary_marker_cell_value: an order without
counted-marker cells summarizes to the number zero. -/
theorem summary_marker_cell_value_witness :
    summary_cell "ENC_CAPA" [(process_row sampleConfig sampleRowA).1]
      = Cell.num 0 :=
  (summary_marker_cell_value [(process_row sampleConfig
    sampleRowA).1]).2.1 (by decide)

/-- C2 (counterexample): the summary cell of the counted sample order
is the plain number 2, not the marker text, and the summary cell of an
order with no counted cells is the number zero, not empty. -/
theorem summary_marker_counterexample :
    summary_cell "ENC_CAPA" [(process_row sampleConfig sampleRowB).1]
      = Cell.num 2
    ∧ (process_row sampleConfig sampleRowB).1.cell "ENC_CAPA"
      = Cell.marker 2
    ∧ decide (summary_cell "ENC_CAPA" [(process_row sampleConfig
        sampleRowB).1] = Cell.marker 2) = false
    ∧ summary_cell "ENC_CAPA" [(process_row sampleConfig sampleRowA).1]
      = Cell.num 0
    ∧ decide (summary_cell "ENC_CAPA" [(process_row sampleConfig
        sampleRowA).1] = Cell.blank) = false := by
  decide

theorem sum_filterMap_eq_sum_map (f : Cell → Option Nat) (l : List Cell) :
    (l.filterMap f).sum = (l.map (fun c => (f c).getD 0)).sum := by
  induction l with
  | nil => rfl
  | cons c t ih => cases hf : f c <;> simp [List.filterMap_cons, hf, ih]

theorem sum_map_filter_split {α : Type} (p : α → Bool) (g : α → Nat)
    (l : List α) :
    ((l.filter p).map g).sum + ((l.filter (fun a => !(p a))).map g).sum
      = (l.map g).sum := by
  induction l with
  | nil => rfl
  | cons a t ih =>
    cases hp : p a <;> simp [List.filter_cons, hp] <;> omega

theorem sum_groups (g : DetailRow → Nat) :
    ∀ (ks : List String) (rows : List DetailRow), ks.Nodup →
      (∀ r ∈ rows, r.order_sn ∈ ks) →
      (ks.map (fun k => ((rowsFor rows k).map g).sum)).sum
        = (rows.map g).sum := by
  intro ks
  induction ks with
  | nil =>
    intro rows _ hmem
    have hnil : rows = [] :=
      List.eq_nil_iff_forall_not_mem.mpr (fun r hr => by
        simpa using hmem r hr)
    simp [hnil]
  | cons k ks ih =>
    intro rows hnd hmem
    have hnd' := List.nodup_cons.mp hnd
    have hgrp : ∀ k' ∈ ks, rowsFor rows k'
        = rowsFor (rows.filter (fun r => !(r.order_sn == k))) k' := by
      intro k' hk'
      have hkne : k' ≠ k := fun he => hnd'.1 (he ▸ hk')
      unfold rowsFor
      rw [List.filter_filter]
      apply List.filter_congr
      intro r _
      cases hrk : r.order_sn == k' with
      | false => simp [hrk]
      | true =>
        have : r.order_sn = k' := by simpa using hrk
        have : ¬(r.order_sn == k) = true := by
          simp [this]
          exact hkne
        simp [hrk, this]
    have hmap : (ks.map (fun k' => ((rowsFor rows k').map g).sum))
        = ks.map (fun k' => ((rowsFor (rows.filter
            (fun r => !(r.order_sn == k))) k').map g).sum) := by
      apply List.map_congr_left
      intro k' hk'
      rw [hgrp k' hk']
    have hih : (ks.map (fun k' => ((rowsFor (rows.filter
        (fun r => !(r.order_sn == k))) k').map g).sum)).sum
        = ((rows.filter (fun r => !(r.order_sn == k))).map g).sum := by
      apply ih _ hnd'.2
      intro r hr
      have hr1 := List.mem_filter.mp hr
      have hsn := hmem r hr1.1
      have hne : r.order_sn ≠ k := by
        have := hr1.2
        simpa using this
      rcases List.mem_cons.mp hsn with he | hm
      · exact absurd he hne
      · exact hm
    have hsplit := sum_map_filter_split (fun r => r.order_sn == k) g rows
    calc ((k :: ks).map (fun k' => ((rowsFor rows k').map g).sum)).sum
        = ((rowsFor rows k).map g).sum
          + (ks.map (fun k' => ((rowsFor rows k').map g).sum)).sum := by
          simp
      _ = ((rowsFor rows k).map g).sum
          + ((rows.filter (fun r => !(r.order_sn == k))).map g).sum := by
          rw [hmap, hih]
      _ = (rows.map g).sum := hsplit

theorem cellVal_sum_or_blank (cells : List Cell) :
    cellVal (sum_or_blank cells)
      = (cells.map (fun c => (asNum c).getD 0)).sum := by
  unfold sum_or_blank
  rw [← sum_filterMap_eq_sum_map]
  by_cases h : (cells.filterMap asNum).isEmpty
  · rw [if_pos h]
    have : cells.filterMap asNum = [] := by simpa using h
    simp [cellVal, this]
  · rw [if_neg h]
    rfl

theorem sum_filterMap_map {α : Type} (f : α → Cell) (g : Cell → Option Nat)
    (l : List α) :
    ((l.map f).filterMap g).sum = (l.map (fun a => (g (f a)).getD 0)).sum := by
  rw [List.filterMap_map]
  induction l with
  | nil => rfl
  | cons a t ih =>
    rw [List.map_cons, List.sum_cons, ← ih]
    cases h : g (f a) <;>
      simp [List.filterMap_cons, Function.comp, h]

theorem total_cell_enc (rows : List DetailRow) :
    total_cell "ENC_CAPA" rows =
      (if ((rows.map (fun r => r.cell "ENC_CAPA")).filterMap
            leadInt).isEmpty then Cell.blank
       else Cell.marker ((rows.map (fun r => r.cell "ENC_CAPA")).filterMap
            leadInt).sum) := by
  simp [total_cell]

theorem summary_cell_enc (rows : List DetailRow) :
    summary_cell "ENC_CAPA" rows
      = Cell.num ((rows.map (fun r => r.cell "ENC_CAPA")).filterMap
          leadInt).sum := by
  simp [summary_cell]

theorem total_cell_other {col : String} (h : ¬(col = "ENC_CAPA"))
    (rows : List DetailRow) :
    total_cell col rows = sum_or_blank (rows.map (fun r => r.cell col)) := by
  simp [total_cell, h]

theorem summary_cell_other {col : String} (h : ¬(col = "ENC_CAPA"))
    (rows : List DetailRow) :
    summary_cell col rows
      = sum_or_blank (rows.map (fun r => r.cell col)) := by
  simp [summary_cell, h]

/-- C4: for every detail table and every category column, the value of
the TOTAL cell equals the sum of that column's values over the
per-order summary rows, a counted-marker cell counting its leading
integer and an empty cell counting nothing. -/
theorem total_equals_summary_sum (rows : List DetailRow) (col : String) :
    cellVal (total_cell col rows)
      = ((groupKeys rows).map
          (fun k => cellVal (summary_cell col (rowsFor rows k)))).sum := by
  have hkeys : (rows.map (fun r => r.order_sn)).dedup.Nodup :=
    List.nodup_dedup _
  have hcover : ∀ r ∈ rows,
      r.order_sn ∈ (rows.map (fun r => r.order_sn)).dedup := by
    intro r hr
    rw [List.mem_dedup]
    exact List.mem_map.mpr ⟨r, hr, rfl⟩
  by_cases hcol : col = "ENC_CAPA"
  · subst hcol
    have htot : cellVal (total_cell "ENC_CAPA" rows)
        = (rows.map (fun r => (leadInt (r.cell "ENC_CAPA")).getD 0)).sum := by
      have hfm := sum_filterMap_map (fun r : DetailRow => r.cell "ENC_CAPA")
        leadInt rows
      rw [total_cell_enc, ← hfm]
      by_cases he : ((rows.map (fun r => r.cell "ENC_CAPA")).filterMap
          leadInt).isEmpty
      · rw [if_pos he]
        have : (rows.map (fun r => r.cell "ENC_CAPA")).filterMap leadInt
            = [] := by simpa using he
        simp [cellVal, this]
      · rw [if_neg he]
        rfl
    have hsum : ∀ k, cellVal (summary_cell "ENC_CAPA" (rowsFor rows k))
        = ((rowsFor rows k).map
            (fun r => (leadInt (r.cell "ENC_CAPA")).getD 0)).sum := by
      intro k
      have hfm := sum_filterMap_map (fun r : DetailRow => r.cell "ENC_CAPA")
        leadInt (rowsFor rows k)
      rw [summary_cell_enc, ← hfm]
      rfl
    rw [htot]
    have hmapeq : (groupKeys rows).map
        (fun k => cellVal (summary_cell "ENC_CAPA" (rowsFor rows k)))
        = (groupKeys rows).map (fun k => ((rowsFor rows k).map
            (fun r => (leadInt (r.cell "ENC_CAPA")).getD 0)).sum) := by
      apply List.map_congr_left
      intro k _
      exact hsum k
    rw [hmapeq]
    exact (sum_groups _ (groupKeys rows) rows hkeys hcover).symm
  · have htot : cellVal (total_cell col rows)
        = (rows.map (fun r => (asNum (r.cell col)).getD 0)).sum := by
      rw [total_cell_other hcol, cellVal_sum_or_blank, List.map_map]
      rfl
    have hsum : ∀ k, cellVal (summary_cell col (rowsFor rows k))
        = ((rowsFor rows k).map
            (fun r => (asNum (r.cell col)).getD 0)).sum := by
      intro k
      rw [summary_cell_other hcol, cellVal_sum_or_blank, List.map_map]
      rfl
    rw [htot]
    have hmapeq : (groupKeys rows).map
        (fun k => cellVal (summary_cell col (rowsFor rows k)))
        = (groupKeys rows).map (fun k => ((rowsFor rows k).map
            (fun r => (asNum (r.cell col)).getD 0)).sum) := by
      apply List.map_congr_left
      intro k _
      exact hsum k
    rw [hmapeq]
    exact (sum_groups _ (groupKeys rows) rows hkeys hcover).symm

theorem length_dropWhile_le (p : Char → Bool) (l : List Char) :
    (l.dropWhile p).length ≤ l.length := by
  induction l with
  | nil => simp
  | cons a t ih =>
    by_cases h : p a
    · rw [List.dropWhile_cons, if_pos h]
      simp only [List.length_cons]
      omega
    · simp [List.dropWhile_cons, h]

theorem matchBlockAt_spec {l b r3 : List Char}
    (h : matchBlockAt l = some (b, r3)) :
    ∃ r r2, l = '[' :: r
      ∧ r.dropWhile isDigitChar = ']' :: r2
      ∧ ¬(r.takeWhile isDigitChar = [])
      ∧ ¬(r2.takeWhile (fun x => !(x = '[')) = [])
      ∧ b = '[' :: r.takeWhile isDigitChar ++
          ']' :: r2.takeWhile (fun x => !(x = '['))
      ∧ r3 = r2.dropWhile (fun x => !(x = '[')) := by
  cases l with
  | nil => simp [matchBlockAt] at h
  | cons c r =>
    simp only [matchBlockAt] at h
    split at h
    case isTrue hc =>
      split at h
      case isTrue => simp at h
      case isFalse hds =>
        split at h
        case h_1 r2 hdw =>
          split at h
          case isTrue => simp at h
          case isFalse hbody =>
            simp only [Option.some.injEq, Prod.mk.injEq] at h
            subst hc
            refine ⟨r, r2, rfl, hdw, ?_, ?_, h.1.symm, h.2.symm⟩
            · simpa using hds
            · simpa using hbody
        case h_2 => simp at h
    case isFalse => simp at h

theorem matchBlockAt_length {l b r3 : List Char}
    (h : matchBlockAt l = some (b, r3)) : r3.length < l.length := by
  obtain ⟨r, r2, hl, hdw, _, _, _, hr3⟩ := matchBlockAt_spec h
  subst hl
  subst hr3
  have h1 := length_dropWhile_le (fun x => !(x = '[')) r2
  have h2 := length_dropWhile_le isDigitChar r
  rw [hdw] at h2
  simp only [List.length_cons] at h2 ⊢
  omega

theorem blockFindAux_fuel (f : Nat) : ∀ (l : List Char), l.length ≤ f →
    blockFindAux f l = blockFindAux l.length l := by
  induction f using Nat.strong_induction_on with
  | _ f ih =>
    intro l hl
    cases f with
    | zero =>
      cases l with
      | nil => rfl
      | cons c rest => simp at hl
    | succ f =>
      cases l with
      | nil => rfl
      | cons c rest =>
        have hr : rest.length ≤ f := by simpa using hl
        simp only [List.length_cons, blockFindAux]
        cases hm : matchBlockAt (c :: rest) with
        | none => exact ih f (Nat.lt_succ_self f) rest hr
        | some br =>
          obtain ⟨blk, r2⟩ := br
          have hlen : r2.length < rest.length + 1 := by
            have := matchBlockAt_length hm
            simpa using this
          have e1 : blockFindAux f r2 = blockFindAux r2.length r2 :=
            ih f (Nat.lt_succ_self f) r2 (by omega)
          have e2 : blockFindAux rest.length r2
              = blockFindAux r2.length r2 :=
            ih rest.length (by omega) r2 (by omega)
          show blk :: blockFindAux f r2
            = blk :: blockFindAux rest.length r2
          rw [e1, e2]

theorem matchBlockAt_not_bracket {c : Char} (hc : ¬(c = '['))
    (r : List Char) : matchBlockAt (c :: r) = none := by
  simp [matchBlockAt, hc]

theorem matchBlockAt_append {l b r : List Char}
    (h : matchBlockAt l = some (b, r)) : b ++ r = l := by
  obtain ⟨r0, r2, hl, hdw, _, _, hb, hr⟩ := matchBlockAt_spec h
  subst hl
  subst hb
  subst hr
  have e1 := List.takeWhile_append_dropWhile isDigitChar r0
  have e2 := List.takeWhile_append_dropWhile (fun x => !(x = '[')) r2
  rw [hdw] at e1
  calc ('[' :: r0.takeWhile isDigitChar ++ ']' ::
          r2.takeWhile (fun x => !(x = '['))) ++
          r2.dropWhile (fun x => !(x = '['))
      = '[' :: (r0.takeWhile isDigitChar ++ ']' ::
          (r2.takeWhile (fun x => !(x = '[')) ++
           r2.dropWhile (fun x => !(x = '[')))) := by simp
    _ = '[' :: (r0.takeWhile isDigitChar ++ ']' :: r2) := by rw [e2]
    _ = '[' :: r0 := by rw [e1]

theorem blockFindAux_mem : ∀ (fuel : Nat) (l bl : List Char),
    bl ∈ blockFindAux fuel l →
    ∃ t r3, t <:+ l ∧ matchBlockAt t = some (bl, r3) := by
  intro fuel
  induction fuel with
  | zero =>
    intro l bl h
    simp [blockFindAux] at h
  | succ fuel ih =>
    intro l bl h
    cases l with
    | nil => simp [blockFindAux] at h
    | cons c rest =>
      simp only [blockFindAux] at h
      cases hm : matchBlockAt (c :: rest) with
      | none =>
        rw [hm] at h
        obtain ⟨t, r3, hs, hmt⟩ := ih rest bl h
        exact ⟨t, r3, hs.trans (List.suffix_cons c rest), hmt⟩
      | some br =>
        obtain ⟨blk, r⟩ := br
        rw [hm] at h
        rcases List.mem_cons.mp h with he | hmem
        · exact ⟨c :: rest, r, List.suffix_refl _, he ▸ hm⟩
        · obtain ⟨t, r3, hs, hmt⟩ := ih r bl hmem
          have hrs : r <:+ c :: rest :=
            matchBlockAt_append hm ▸ List.suffix_append blk r
          exact ⟨t, r3, hs.trans hrs, hmt⟩

theorem dropWhile_head_false (p : Char → Bool) :
    ∀ (l xs : List Char) (x : Char),
    l.dropWhile p = x :: xs → p x = false := by
  intro l
  induction l with
  | nil =>
    intro xs x h
    simp at h
  | cons a t ih =>
    intro xs x h
    by_cases hp : p a
    · rw [List.dropWhile_cons, if_pos hp] at h
      exact ih xs x h
    · rw [List.dropWhile_cons, if_neg hp] at h
      injection h with h1 _
      rw [← h1]
      cases hq : p a with
      | false => rfl
      | true => exact absurd hq hp

/-- Modelled from the amended claim's words: the maximal
marker-initiated runs of the text, position by position - for every
suffix of the input, the bracketed digit marker starting there
followed by its maximal nonempty run of non-bracket characters, when
there is one.  This declarative description is compared with the
source-derived findall embedding below. -/
def blockSpec : List Char → List (List Char)
  | [] => []
  | c :: rest =>
    (match matchBlockAt (c :: rest) with
     | some (b, _) => [b]
     | none => []) ++ blockSpec rest

theorem blockSpec_cons (c : Char) (rest : List Char) :
    blockSpec (c :: rest)
      = (match matchBlockAt (c :: rest) with
         | some (b, _) => [b]
         | none => []) ++ blockSpec rest := rfl

theorem blockSpec_no_bracket : ∀ (m r : List Char),
    (∀ x ∈ m, ¬(x = '[')) → blockSpec (m ++ r) = blockSpec r := by
  intro m
  induction m with
  | nil =>
    intro r _
    rfl
  | cons x m ih =>
    intro r hm
    have hx : ¬(x = '[') := hm x (List.mem_cons_self x m)
    have hm' : ∀ y ∈ m, ¬(y = '[') :=
      fun y hy => hm y (List.mem_cons_of_mem x hy)
    show blockSpec (x :: (m ++ r)) = blockSpec r
    rw [blockSpec_cons, matchBlockAt_not_bracket hx, List.nil_append]
    exact ih r hm'

theorem blockSpec_match {l b r : List Char}
    (h : matchBlockAt l = some (b, r)) :
    blockSpec l = b :: blockSpec r := by
  obtain ⟨r0, r2, hl, hdw, hds, hbody, hb, hr⟩ := matchBlockAt_spec h
  have happ := matchBlockAt_append h
  have hr0 : r0 = (r0.takeWhile isDigitChar ++ ']' ::
      r2.takeWhile (fun x => !(x = '['))) ++ r := by
    have hx : b ++ r = '[' :: r0 := hl ▸ happ
    rw [hb] at hx
    have h2 : '[' :: ((r0.takeWhile isDigitChar ++ ']' ::
        r2.takeWhile (fun x => !(x = '['))) ++ r) = '[' :: r0 := by
      simpa using hx
    injection h2 with _ h3
    exact h3.symm
  have hnb : ∀ x ∈ r0.takeWhile isDigitChar ++ ']' ::
      r2.takeWhile (fun x => !(x = '[')), ¬(x = '[') := by
    intro x hx
    rcases List.mem_append.mp hx with h1 | h2
    · have hd := List.mem_takeWhile_imp h1
      intro he
      subst he
      exact absurd hd (by decide)
    · rcases List.mem_cons.mp h2 with he | h3
      · subst he
        decide
      · have hd := List.mem_takeWhile_imp h3
        simpa using hd
  subst hl
  rw [blockSpec_cons, h]
  show b :: blockSpec r0 = b :: blockSpec r
  congr 1
  conv_lhs => rw [hr0]
  exact blockSpec_no_bracket _ r hnb

theorem blockFind_eq_spec_aux : ∀ (n : Nat) (l : List Char),
    l.length ≤ n → blockFindAux l.length l = blockSpec l := by
  intro n
  induction n with
  | zero =>
    intro l hl
    cases l with
    | nil => rfl
    | cons c rest => simp at hl
  | succ n ih =>
    intro l hl
    cases l with
    | nil => rfl
    | cons c rest =>
      have hr : rest.length ≤ n := by simpa using hl
      simp only [List.length_cons, blockFindAux]
      cases hm : matchBlockAt (c :: rest) with
      | none =>
        rw [blockSpec_cons, hm, List.nil_append]
        exact ih rest hr
      | some br =>
        obtain ⟨b, r⟩ := br
        have hlen : r.length < rest.length + 1 := by
          simpa using matchBlockAt_length hm
        rw [blockSpec_match hm]
        show b :: blockFindAux rest.length r = b :: blockSpec r
        congr 1
        rw [blockFindAux_fuel rest.length r (by omega)]
        exact ih r (by omega)

theorem blockFind_eq_spec (l : List Char) :
    blockFindAux l.length l = blockSpec l :=
  blockFind_eq_spec_aux l.length l (Nat.le_refl _)

theorem blockFindAux_eq_nil : ∀ (l : List Char),
    (∀ t, t <:+ l → matchBlockAt t = none) →
    blockFindAux l.length l = [] := by
  intro l
  induction l with
  | nil =>
    intro _
    rfl
  | cons c rest ih =>
    intro h
    simp only [List.length_cons, blockFindAux]
    rw [h (c :: rest) (List.suffix_refl _)]
    exact ih (fun t ht => h t (ht.trans (List.suffix_cons c rest)))

theorem blockFindAux_ne_nil : ∀ (l t : List Char), t <:+ l →
    ¬(matchBlockAt t = none) → ¬(blockFindAux l.length l = []) := by
  intro l
  induction l with
  | nil =>
    intro t hsuf hmt
    have ht : t = [] := List.suffix_nil.mp hsuf
    subst ht
    exact absurd rfl hmt
  | cons c rest ih =>
    intro t hsuf hmt
    simp only [List.length_cons, blockFindAux]
    cases hm : matchBlockAt (c :: rest) with
    | some br =>
      obtain ⟨b, r⟩ := br
      simp
    | none =>
      rcases List.suffix_cons_iff.mp hsuf with he | hs
      · exact absurd (he ▸ hm) hmt
      · exact ih t hs hmt

/-- C10 (amended): findall returns exactly the maximal
marker-initiated runs - it equals, block for block, the declarative
per-position enumeration blockSpec of the input's maximal runs; every
returned block is a bracketed digit marker followed by a nonempty run
of non-bracket characters that occurs in the input and extends
maximally, up to the next opening bracket or the end; text with no
opening bracket before the rest of the input changes nothing of the
result, so no field in it reaches any block; the result is nonempty as
soon as some marker is followed by at least one non-bracket character,
and then the pipeline adopts it as the block list; and when no marker
has such a nonempty tail, the entire text - any text before a marker
included - becomes the single block. -/
theorem block_split_amended (s : String) :
    block_findall s = (blockSpec s.data).map (fun l => ⟨l⟩)
    ∧ (∀ b ∈ block_findall s, ∃ ds body rest : List Char,
        ¬(ds = []) ∧ (∀ c ∈ ds, isDigitChar c = true)
        ∧ ¬(body = []) ∧ (∀ c ∈ body, ¬(c = '['))
        ∧ b.data = '[' :: ds ++ ']' :: body
        ∧ (b.data ++ rest) <:+ s.data
        ∧ (rest = [] ∨ ∃ rest2, rest = '[' :: rest2))
    ∧ (∀ pre : List Char, (∀ c ∈ pre, ¬(c = '[')) →
        blockFindAux (pre ++ s.data).length (pre ++ s.data)
          = blockFindAux s.data.length s.data)
    ∧ (∀ t : List Char, t <:+ s.data → ¬(matchBlockAt t = none) →
        ¬(block_findall s = []))
    ∧ (¬(block_findall s = []) → blocks_of (some s) = block_findall s)
    ∧ ((∀ t ∈ s.data.tails, matchBlockAt t = none) →
        blocks_of (some s) = [s]) := by
  refine ⟨?_, ?_, ?_, ?_, ?_, ?_⟩
  · unfold block_findall
    rw [blockFind_eq_spec]
  · intro b hb
    obtain ⟨lc, hlc, hsval⟩ := List.mem_map.mp hb
    obtain ⟨t, r3, hsuf, hm⟩ := blockFindAux_mem _ _ _ hlc
    obtain ⟨r0, r2, _, _, hds, hbody, hb2, hr⟩ := matchBlockAt_spec hm
    have happ := matchBlockAt_append hm
    refine ⟨r0.takeWhile isDigitChar,
      r2.takeWhile (fun x => !(x = '[')), r3, hds, ?_, hbody, ?_, ?_,
      ?_, ?_⟩
    · intro c hc
      exact List.mem_takeWhile_imp hc
    · intro c hc
      have := List.mem_takeWhile_imp hc
      simpa using this
    · rw [← hsval]
      exact hb2
    · rw [← hsval]
      show (lc ++ r3) <:+ s.data
      rw [happ]
      exact hsuf
    · subst hr
      cases hdrop : r2.dropWhile (fun x => !(x = '[')) with
      | nil => exact Or.inl rfl
      | cons x xs =>
        right
        have hx0 := dropWhile_head_false _ r2 xs x hdrop
        have hx : x = '[' := by simpa using hx0
        exact ⟨xs, by rw [hx]⟩
  · intro pre
    induction pre with
    | nil => intro _; rfl
    | cons c pre ih =>
      intro hpre
      have hc : ¬(c = '[') := hpre c (List.mem_cons_self c pre)
      have hpre' : ∀ x ∈ pre, ¬(x = '[') :=
        fun x hx => hpre x (List.mem_cons_of_mem c hx)
      have : (c :: pre) ++ s.data = c :: (pre ++ s.data) := rfl
      rw [this]
      simp only [List.length_cons, blockFindAux,
        matchBlockAt_not_bracket hc]
      rw [blockFindAux_fuel (pre ++ s.data).length (pre ++ s.data)
        (Nat.le_refl _)]
      exact ih hpre'
  · intro t hsuf hmt hnil
    have : blockFindAux s.data.length s.data = [] := by
      have hmap : (blockFindAux s.data.length s.data).map
          (fun l => (⟨l⟩ : String)) = [] := hnil
      exact List.map_eq_nil_iff.mp hmap
    exact blockFindAux_ne_nil s.data t hsuf hmt this
  · intro h
    have he : (block_findall s).isEmpty = false := by
      cases hx : (block_findall s).isEmpty with
      | true => exact absurd (List.isEmpty_iff.mp hx) h
      | false => rfl
    simp [blocks_of, he]
  · intro hnone
    have h' : ∀ t, t <:+ s.data → matchBlockAt t = none :=
      fun t ht => hnone t ((List.mem_tails t s.data).mpr ht)
    have hnil : blockFindAux s.data.length s.data = [] :=
      blockFindAux_eq_nil s.data h'
    have hfa : block_findall s = [] := by
      unfold block_findall
      rw [hnil]
      rfl
    have hbo : blocks_of (some s)
        = if (block_findall s).isEmpty then [s] else block_findall s := rfl
    rw [hbo, hfa]
    rfl

/-- Closed instance of block_split_amended: the sample marker text has
a nonempty findall result which the pipeline adopts as its block list,
bracket-free leading text changes nothing, and a markerless text falls
back to the single whole-text block. -/
theorem block_split_amended_witness :
    ¬(block_findall "[1] abc" = [])
    ∧ blocks_of (some "[1] abc") = block_findall "[1] abc"
    ∧ blockFindAux (('x' :: "[1] abc".data).length)
        ('x' :: "[1] abc".data)
      = blockFindAux "[1] abc".data.length "[1] abc".data
    ∧ blocks_of (some "no markers") = ["no markers"] := by
  have h := block_split_amended "[1] abc"
  have hg := block_split_amended "no markers"
  have h1 := h.2.2.2.1 ("[1] abc".data) (List.suffix_refl _) (by decide)
  exact ⟨h1, h.2.2.2.2.1 h1, h.2.2.1 ['x'] (by decide),
    hg.2.2.2.2.2 (by decide)⟩

/-- C10 (counterexample): a text that contains a bracketed marker only
at its very end has an empty findall result, so the whole text - the
part before the marker included - becomes the single block; the claim
that the text before the first marker belongs to no block fails
here. -/
theorem block_split_counterexample :
    containsSub "[1]" "SKU Reference No. : ABC [1]" = true
    ∧ block_findall "SKU Reference No. : ABC [1]" = []
    ∧ blocks_of (some "SKU Reference No. : ABC [1]")
        = ["SKU Reference No. : ABC [1]"]
    ∧ decide (blocks_of (some "SKU Reference No. : ABC [1]")
        = ["[1]"]) = false := by
  decide

end Brasoft
